import Mathlib

/-!
Verification development for the invest-agents allocation/rebalancing pipeline.

The embedding models the three core components of the repository:
  * the Plan Builder        (`orchestrator/main.py`: `infer_class`, `build_plan`,
                             with `common/risk/risk.py`: `cap_position_weights`),
  * the Plan Validator      (`run_validate.py`: `main`, its check section),
  * the Paper Execution Engine (`interfaces/broker_adapter/paper.py`:
                             `get_exec_price`, `is_crypto`, `main`).

Modelling conventions:
  * Python floats are modelled as exact rationals (`ℚ`); Python `round(x, 6)`
    (round-half-to-even) is modelled exactly by `round6`.
  * Python dicts are modelled as association lists in insertion order
    (`aset` is dict assignment: update in place or append; `alookup`/`aget`
    are `d[k]` / `d.get(k, default)`); dict iteration is iteration over the
    association list, matching Python's insertion-order iteration.
  * `str.upper()` / `str.strip()` are modelled character-wise by
    `pyUpper` / `pyStrip` (the repository's symbols are ASCII).
  * File IO, timestamps, uuid order ids and the append-only execution log are
    presentation/persistence glue around the state transition and are not part
    of the modelled state; the recorded history NAV is modelled by
    `recordedNav` exactly as computed before being appended.
-/

namespace InvestAgents

/-- Round a rational to the nearest integer, ties to even: the exact semantics
of Python's built-in `round` on exact values. -/
def rnd (q : ℚ) : ℤ :=
  if q - ⌊q⌋ < 1/2 then ⌊q⌋
  else if 1/2 < q - ⌊q⌋ then ⌊q⌋ + 1
  else if ⌊q⌋ % 2 = 0 then ⌊q⌋ else ⌊q⌋ + 1

/-- Python `round(x, 6)` on exact rationals. -/
def round6 (q : ℚ) : ℚ := (rnd (q * 1000000) : ℚ) / 1000000

theorem rnd_le (q : ℚ) : (rnd q : ℚ) ≤ q + 1/2 := by
  unfold rnd
  have hfl : (⌊q⌋ : ℚ) ≤ q := Int.floor_le q
  have hfl2 : q - 1 < ⌊q⌋ := Int.sub_one_lt_floor q
  split
  · linarith
  · split
    · push_cast
      rename_i h1 h2
      simp only [not_lt] at h1
      linarith
    · split <;> push_cast <;> rename_i h1 h2 _ <;> simp only [not_lt] at h1 h2 <;> linarith

theorem le_rnd (q : ℚ) : q - 1/2 ≤ (rnd q : ℚ) := by
  unfold rnd
  have hfl : (⌊q⌋ : ℚ) ≤ q := Int.floor_le q
  have hfl2 : q - 1 < ⌊q⌋ := Int.sub_one_lt_floor q
  split
  · rename_i h1
    linarith
  · split
    · push_cast
      linarith
    · split <;> push_cast <;> rename_i h1 h2 _ <;> simp only [not_lt] at h1 h2 <;> linarith

theorem abs_round6_sub_le (q : ℚ) : |round6 q - q| ≤ 1/2000000 := by
  have h1 := rnd_le (q * 1000000)
  have h2 := le_rnd (q * 1000000)
  rw [abs_le]
  unfold round6
  constructor <;> [nlinarith; nlinarith]

theorem round6_le (q : ℚ) : round6 q ≤ q + 1/2000000 := by
  have := abs_round6_sub_le q
  rw [abs_le] at this
  linarith [this.2]

theorem le_round6 (q : ℚ) : q - 1/2000000 ≤ round6 q := by
  have := abs_round6_sub_le q
  rw [abs_le] at this
  linarith [this.1]

theorem rnd_nonneg {q : ℚ} (h : 0 ≤ q) : 0 ≤ rnd q := by
  unfold rnd
  have hfl : (0 : ℤ) ≤ ⌊q⌋ := Int.floor_nonneg.mpr h
  split
  · exact hfl
  · split
    · omega
    · split <;> omega

theorem round6_nonneg {q : ℚ} (h : 0 ≤ q) : 0 ≤ round6 q := by
  unfold round6
  have : (0 : ℚ) ≤ (rnd (q * 1000000) : ℚ) := by
    exact_mod_cast rnd_nonneg (by positivity)
  positivity

theorem round6_zero : round6 0 = 0 := by
  norm_num [round6, rnd]

theorem round6_low (q : ℚ) (n : ℤ) (hn : ⌊q * 1000000⌋ = n)
    (h : q * 1000000 - n < 1/2) : round6 q = (n : ℚ) / 1000000 := by
  unfold round6 rnd
  rw [hn, if_pos h]

theorem round6_high (q : ℚ) (n : ℤ) (hn : ⌊q * 1000000⌋ = n)
    (h : 1/2 < q * 1000000 - n) : round6 q = ((n : ℚ) + 1) / 1000000 := by
  unfold round6 rnd
  rw [hn, if_neg (by linarith), if_pos h]
  push_cast
  ring_nf

/-- Python dict lookup `d[k]` (first = only occurrence; keys are unique in a dict). -/
def alookup {α : Type} : List (String × α) → String → Option α
  | [], _ => none
  | p :: rest, k => if p.1 = k then some p.2 else alookup rest k

/-- Python `d.get(k, default)`. -/
def aget {α : Type} (l : List (String × α)) (k : String) (d : α) : α :=
  (alookup l k).getD d

/-- Python dict assignment `d[k] = v`: replaces the value in place if the key
exists, otherwise appends at the end (insertion order). -/
def aset {α : Type} : List (String × α) → String → α → List (String × α)
  | [], k, v => [(k, v)]
  | p :: rest, k, v => if p.1 = k then (k, v) :: rest else p :: aset rest k v

/-- The keys of a dict, in insertion order (Python `list(d.keys())`). -/
def keys {α : Type} (l : List (String × α)) : List String := l.map Prod.fst

/-- Sum of a dict's values (Python `sum(d.values())`). -/
def sumVals (l : List (String × ℚ)) : ℚ := (l.map Prod.snd).sum

theorem alookup_aset_self {α : Type} (l : List (String × α)) (k : String) (v : α) :
    alookup (aset l k v) k = some v := by
  induction l with
  | nil => simp [aset, alookup]
  | cons p rest ih =>
    by_cases h : p.1 = k
    · simp [aset, alookup, h]
    · simp [aset, alookup, h, ih]

theorem alookup_aset_ne {α : Type} (l : List (String × α)) {k k' : String} (v : α)
    (h : k' ≠ k) : alookup (aset l k' v) k = alookup l k := by
  induction l with
  | nil => simp [aset, alookup, h]
  | cons p rest ih =>
    by_cases hp : p.1 = k'
    · simp only [aset, if_pos hp, alookup]
      rw [if_neg h, if_neg (show ¬p.1 = k by rw [hp]; exact h)]
    · by_cases hk : p.1 = k
      · simp only [aset, if_neg hp, alookup, if_pos hk]
      · simp only [aset, if_neg hp, alookup, if_neg hk, ih]

theorem aget_aset_ne {α : Type} (l : List (String × α)) {k k' : String} (v : α) (d : α)
    (h : k' ≠ k) : aget (aset l k' v) k d = aget l k d := by
  unfold aget
  rw [alookup_aset_ne l v h]

theorem alookup_mem {α : Type} {l : List (String × α)} {k : String} {v : α}
    (h : alookup l k = some v) : (k, v) ∈ l := by
  induction l with
  | nil => simp [alookup] at h
  | cons p rest ih =>
    by_cases hp : p.1 = k
    · simp only [alookup, hp, if_true, Option.some.injEq] at h
      have hpv : (k, v) = p := by
        rw [← hp, ← h]
      rw [hpv]
      exact List.mem_cons_self _ _
    · simp only [alookup, hp, if_false] at h
      exact List.mem_cons_of_mem _ (ih h)

theorem mem_aset {α : Type} {l : List (String × α)} {k : String} {v : α} {p : String × α}
    (h : p ∈ aset l k v) : p = (k, v) ∨ p ∈ l := by
  induction l with
  | nil => simpa [aset] using h
  | cons q rest ih =>
    by_cases hq : q.1 = k
    · simp only [aset, hq, if_true, List.mem_cons] at h
      rcases h with h | h
      · exact Or.inl h
      · exact Or.inr (List.mem_cons_of_mem _ h)
    · simp only [aset, hq, if_false, List.mem_cons] at h
      rcases h with h | h
      · exact Or.inr (by simp [h])
      · rcases ih h with h' | h'
        · exact Or.inl h'
        · exact Or.inr (List.mem_cons_of_mem _ h')

theorem aget_pos_mem_keys {l : List (String × ℚ)} {k : String}
    (h : 0 < aget l k 0) : k ∈ keys l := by
  unfold aget at h
  cases hl : alookup l k with
  | none => rw [hl] at h; simp at h
  | some v =>
    have := alookup_mem hl
    exact List.mem_map.mpr ⟨(k, v), this, rfl⟩

theorem sumVals_map_div (l : List (String × ℚ)) (s : ℚ) :
    sumVals (l.map (fun p => (p.1, p.2 / s))) = sumVals l / s := by
  induction l with
  | nil => simp [sumVals]
  | cons p rest ih =>
    simp only [sumVals, List.map_cons, List.sum_cons, List.map_map] at *
    rw [ih]
    ring

/-! The Plan Builder (`orchestrator/main.py` with `common/risk/risk.py`). -/

/-- A signal record as consumed by `build_plan` (only `instrument_id` and
`confidence` are read; `float(s.get("confidence", 0.5))` is modelled by the
confidence always being present as a rational). -/
structure Signal where
  instrument_id : String
  confidence : ℚ

/-- The strategy policy fields read by `build_plan`:
`strategy["alloc_target"]` and `strategy["risk_limits"]["position_max_pct"]`. -/
structure Strategy where
  alloc_target : List (String × ℚ)
  position_max_pct : ℚ

/-- One entry of `plan["orders"]` (the constant `max_notional: None` is omitted). -/
structure Order where
  instrument_id : String
  action : String
  target_weight : ℚ

/-- The allocation plan: `{"classes": ..., "orders": ...}`. -/
structure Plan where
  classes : List (String × List (String × ℚ))
  orders : List Order

/-- `orchestrator/main.py`: `infer_class`. -/
def infer_class (instrument_id : String) : String :=
  if instrument_id ∈ ["VNQ", "IPRP", "IWDP", "PLD", "O", "SPG"] then "reits"
  else if instrument_id ∈ ["BTC", "ETH"] then "crypto"
  else if instrument_id ∈ ["IEF", "TLT", "SHY", "IEGA", "IEAC", "LQD", "BUND"] then "fixed_income"
  else "equities"

/-- `common/risk/risk.py`: `cap_position_weights`. -/
def cap_position_weights (weights : List (String × ℚ)) (max_pct : ℚ) : List (String × ℚ) :=
  let capped := weights.map (fun p => (p.1, min p.2 max_pct))
  let s := sumVals capped
  if s = 0 then capped else capped.map (fun p => (p.1, p.2 / s))

/-- The signal-grouping loop of `build_plan`:
`by_class.setdefault(cls, {}); by_class[cls][inst] = max(conf, by_class[cls].get(inst, 0.0))`. -/
def buildByClass (signals : List Signal) : List (String × List (String × ℚ)) :=
  signals.foldl
    (fun acc sg =>
      let cls := infer_class sg.instrument_id
      let insts := aget acc cls []
      aset acc cls (aset insts sg.instrument_id (max sg.confidence (aget insts sg.instrument_id 0))))
    []

/-- `class_weight = max(0.0, min(1.0, float(target_alloc.get(cls, 0.0))))`. -/
def clamp01 (x : ℚ) : ℚ := max 0 (min 1 x)

/-- The per-class body of `build_plan`: intra-class confidence weights, the
position cap, the clamped class weight, and the 6-decimal rounding. -/
def classPlanOf (strategy : Strategy) (insts : List (String × ℚ)) (cls : String) :
    List (String × ℚ) :=
  let s := sumVals insts
  let intra := insts.map (fun p => (p.1, p.2 / s))
  let intra2 := cap_position_weights intra strategy.position_max_pct
  let class_weight := clamp01 (aget strategy.alloc_target cls 0)
  intra2.map (fun p => (p.1, round6 (class_weight * p.2)))

/-- The order-emission loop of `build_plan`:
`"INCREASE" if tw > 0 else "HOLD"`. -/
def ordersOf (class_plan : List (String × ℚ)) : List Order :=
  class_plan.map (fun (p : String × ℚ) =>
    { instrument_id := p.1, action := if 0 < p.2 then "INCREASE" else "HOLD",
      target_weight := p.2 })

/-- `orchestrator/main.py`: `build_plan` (the pure part after grouping). -/
def build_plan (strategy : Strategy) (signals : List Signal) : Plan :=
  (buildByClass signals).foldl
    (fun plan e =>
      if e.2 = [] then plan
      else if sumVals e.2 ≤ 0 then plan
      else
        let class_plan := classPlanOf strategy e.2 e.1
        { classes := plan.classes ++ [(e.1, class_plan)],
          orders := plan.orders ++ ordersOf class_plan })
    { classes := [], orders := [] }

/-! Structural lemmas about the Plan Builder. -/

theorem buildByClass_inv (signals : List Signal) :
    ∀ e ∈ buildByClass signals, ∀ p ∈ e.2, infer_class p.1 = e.1 ∧ 0 ≤ p.2 := by
  unfold buildByClass
  suffices h : ∀ (acc : List (String × List (String × ℚ))),
      (∀ e ∈ acc, ∀ p ∈ e.2, infer_class p.1 = e.1 ∧ 0 ≤ p.2) →
      ∀ e ∈ signals.foldl
        (fun acc sg =>
          let cls := infer_class sg.instrument_id
          let insts := aget acc cls []
          aset acc cls
            (aset insts sg.instrument_id (max sg.confidence (aget insts sg.instrument_id 0))))
        acc, ∀ p ∈ e.2, infer_class p.1 = e.1 ∧ 0 ≤ p.2 by
    exact h [] (by simp)
  induction signals with
  | nil => intro acc hacc; simpa using hacc
  | cons sg rest ih =>
    intro acc hacc
    simp only [List.foldl_cons]
    apply ih
    intro e he p hp
    rcases mem_aset he with he' | he'
    · subst he'
      rcases mem_aset hp with hp' | hp'
      · subst hp'
        refine ⟨rfl, ?_⟩
        have : (0 : ℚ) ≤ aget (aget acc (infer_class sg.instrument_id) []) sg.instrument_id 0 := by
          unfold aget
          cases hl : alookup ((alookup acc (infer_class sg.instrument_id)).getD [])
              sg.instrument_id with
          | none => exact le_refl (0 : ℚ)
          | some v =>
            show (0 : ℚ) ≤ v
            have hmem := alookup_mem hl
            cases hl2 : alookup acc (infer_class sg.instrument_id) with
            | none => rw [hl2] at hmem; simp at hmem
            | some insts =>
              rw [hl2] at hmem
              simp only [Option.getD_some] at hmem
              exact (hacc _ (alookup_mem hl2) _ hmem).2
        exact le_max_of_le_right this
      · have hbase : ∀ q ∈ aget acc (infer_class sg.instrument_id) [],
            infer_class q.1 = infer_class sg.instrument_id ∧ 0 ≤ q.2 := by
          unfold aget
          cases hl2 : alookup acc (infer_class sg.instrument_id) with
          | none => simp
          | some insts =>
            simp only [Option.getD_some]
            intro q hq
            exact hacc _ (alookup_mem hl2) q hq
        exact hbase p hp'
    · exact hacc e he' p hp

theorem build_plan_classes_inv (strategy : Strategy) (signals : List Signal)
    (P : String × List (String × ℚ) → Prop)
    (hstep : ∀ e ∈ buildByClass signals, e.2 ≠ [] → 0 < sumVals e.2 →
      P (e.1, classPlanOf strategy e.2 e.1)) :
    ∀ c ∈ (build_plan strategy signals).classes, P c := by
  unfold build_plan
  suffices h : ∀ (l : List (String × List (String × ℚ))) (acc : Plan),
      (∀ e ∈ l, e.2 ≠ [] → 0 < sumVals e.2 → P (e.1, classPlanOf strategy e.2 e.1)) →
      (∀ c ∈ acc.classes, P c) →
      ∀ c ∈ (l.foldl
        (fun plan e =>
          if e.2 = [] then plan
          else if sumVals e.2 ≤ 0 then plan
          else
            { classes := plan.classes ++ [(e.1, classPlanOf strategy e.2 e.1)],
              orders := plan.orders ++ ordersOf (classPlanOf strategy e.2 e.1) })
        acc).classes, P c by
    exact h (buildByClass signals) { classes := [], orders := [] } hstep (by simp)
  intro l
  induction l with
  | nil => intro acc _ hacc; simpa using hacc
  | cons e rest ih =>
    intro acc hl hacc
    simp only [List.foldl_cons]
    by_cases h1 : e.2 = []
    · rw [if_pos h1]
      exact ih acc (fun e' he' => hl e' (List.mem_cons_of_mem _ he')) hacc
    · rw [if_neg h1]
      by_cases h2 : sumVals e.2 ≤ 0
      · rw [if_pos h2]
        exact ih acc (fun e' he' => hl e' (List.mem_cons_of_mem _ he')) hacc
      · rw [if_neg h2]
        apply ih _ (fun e' he' => hl e' (List.mem_cons_of_mem _ he'))
        intro c hc
        rcases List.mem_append.mp hc with hc' | hc'
        · exact hacc c hc'
        · rw [List.mem_singleton.mp hc']
          exact hl e (List.mem_cons_self _ _) h1 (lt_of_not_le h2)

theorem build_plan_orders_inv (strategy : Strategy) (signals : List Signal)
    (Q : Order → Prop)
    (hstep : ∀ e ∈ buildByClass signals, e.2 ≠ [] → 0 < sumVals e.2 →
      ∀ o ∈ ordersOf (classPlanOf strategy e.2 e.1), Q o) :
    ∀ o ∈ (build_plan strategy signals).orders, Q o := by
  unfold build_plan
  suffices h : ∀ (l : List (String × List (String × ℚ))) (acc : Plan),
      (∀ e ∈ l, e.2 ≠ [] → 0 < sumVals e.2 →
        ∀ o ∈ ordersOf (classPlanOf strategy e.2 e.1), Q o) →
      (∀ o ∈ acc.orders, Q o) →
      ∀ o ∈ (l.foldl
        (fun plan e =>
          if e.2 = [] then plan
          else if sumVals e.2 ≤ 0 then plan
          else
            { classes := plan.classes ++ [(e.1, classPlanOf strategy e.2 e.1)],
              orders := plan.orders ++ ordersOf (classPlanOf strategy e.2 e.1) })
        acc).orders, Q o by
    exact h (buildByClass signals) { classes := [], orders := [] } hstep (by simp)
  intro l
  induction l with
  | nil => intro acc _ hacc; simpa using hacc
  | cons e rest ih =>
    intro acc hl hacc
    simp only [List.foldl_cons]
    by_cases h1 : e.2 = []
    · rw [if_pos h1]
      exact ih acc (fun e' he' => hl e' (List.mem_cons_of_mem _ he')) hacc
    · rw [if_neg h1]
      by_cases h2 : sumVals e.2 ≤ 0
      · rw [if_pos h2]
        exact ih acc (fun e' he' => hl e' (List.mem_cons_of_mem _ he')) hacc
      · rw [if_neg h2]
        apply ih _ (fun e' he' => hl e' (List.mem_cons_of_mem _ he'))
        intro o ho
        rcases List.mem_append.mp ho with ho' | ho'
        · exact hacc o ho'
        · exact hl e (List.mem_cons_self _ _) h1 (lt_of_not_le h2) o ho'

theorem sum_round6_bound (l : List ℚ) :
    |(l.map round6).sum - l.sum| ≤ (l.length : ℚ) / 2000000 := by
  induction l with
  | nil => simp
  | cons a rest ih =>
    simp only [List.map_cons, List.sum_cons, List.length_cons]
    have h1 := abs_round6_sub_le a
    have key : round6 a + (rest.map round6).sum - (a + rest.sum)
        = (round6 a - a) + ((rest.map round6).sum - rest.sum) := by ring
    rw [key]
    calc |(round6 a - a) + ((rest.map round6).sum - rest.sum)|
        ≤ |round6 a - a| + |(rest.map round6).sum - rest.sum| := abs_add _ _
      _ ≤ 1/2000000 + (rest.length : ℚ) / 2000000 := add_le_add h1 ih
      _ = ((rest.length + 1 : ℕ) : ℚ) / 2000000 := by push_cast; ring

theorem sum_map_mul (c : ℚ) (l : List (String × ℚ)) :
    (l.map (fun p => c * p.2)).sum = c * sumVals l := by
  induction l with
  | nil => simp [sumVals]
  | cons p rest ih =>
    simp only [sumVals, List.map_cons, List.sum_cons] at *
    rw [ih]
    ring

theorem sumVals_round6_mul_bound (l : List (String × ℚ)) (c : ℚ) :
    |sumVals (l.map (fun p => (p.1, round6 (c * p.2)))) - c * sumVals l|
      ≤ (l.length : ℚ) / 2000000 := by
  have e1 : sumVals (l.map (fun p => (p.1, round6 (c * p.2))))
      = ((l.map (fun p => c * p.2)).map round6).sum := by
    unfold sumVals
    rw [List.map_map, List.map_map]
    rfl
  have e2 : c * sumVals l = (l.map (fun p => c * p.2)).sum := (sum_map_mul c l).symm
  have e3 : (l.length : ℚ) = ((l.map (fun p => c * p.2)).length : ℚ) := by
    rw [List.length_map]
  rw [e1, e2, e3]
  exact sum_round6_bound _

theorem sumVals_nonneg_cap_pos {l : List (String × ℚ)} {m : ℚ}
    (hnn : ∀ p ∈ l, 0 ≤ p.2) (hsum : 0 < sumVals l) (hm : 0 < m) :
    0 < sumVals (l.map (fun p => (p.1, min p.2 m))) := by
  have hex : ∃ p ∈ l, 0 < p.2 := by
    by_contra hno
    push_neg at hno
    have : sumVals l = 0 := by
      unfold sumVals
      apply List.sum_eq_zero
      intro x hx
      rcases List.mem_map.mp hx with ⟨p, hp, rfl⟩
      exact le_antisymm (hno p hp) (hnn p hp)
    linarith
  rcases hex with ⟨p, hp, hppos⟩
  have hmem : min p.2 m ∈ (l.map (fun q => (q.1, min q.2 m))).map Prod.snd := by
    rw [List.map_map]
    exact List.mem_map.mpr ⟨p, hp, rfl⟩
  have hle : min p.2 m ≤ sumVals (l.map (fun q => (q.1, min q.2 m))) := by
    unfold sumVals
    apply List.single_le_sum _ _ hmem
    intro x hx
    rw [List.map_map] at hx
    rcases List.mem_map.mp hx with ⟨q, hq, rfl⟩
    exact le_min (hnn q hq) (le_of_lt hm)
  exact lt_of_lt_of_le (lt_min hppos hm) hle

theorem cap_position_weights_sum_one {l : List (String × ℚ)} {m : ℚ}
    (h : sumVals (l.map (fun p => (p.1, min p.2 m))) ≠ 0) :
    sumVals (cap_position_weights l m) = 1 := by
  simp only [cap_position_weights]
  rw [if_neg h, sumVals_map_div]
  exact div_self h

theorem cap_position_weights_id {l : List (String × ℚ)} {m : ℚ}
    (hle : ∀ p ∈ l, p.2 ≤ m) (hsum : sumVals l = 1) :
    cap_position_weights l m = l := by
  have hcap : l.map (fun p => (p.1, min p.2 m)) = l := by
    have : l.map (fun p => (p.1, min p.2 m)) = l.map (fun p => p) := by
      apply List.map_congr_left
      intro p hp
      rw [min_eq_left (hle p hp)]
    rw [this, List.map_id']
  simp only [cap_position_weights]
  rw [hcap, hsum]
  rw [if_neg one_ne_zero]
  have : l.map (fun p => (p.1, p.2 / 1)) = l.map (fun p => p) := by
    apply List.map_congr_left
    intro p _
    rw [div_one]
  rw [this, List.map_id']

theorem clamp01_nonneg (x : ℚ) : 0 ≤ clamp01 x := le_max_left 0 _

theorem clamp01_le_one (x : ℚ) : clamp01 x ≤ 1 :=
  max_le (by norm_num) (min_le_left 1 x)

theorem mem_cap_position_weights_key {q : String × ℚ} {l : List (String × ℚ)} {m : ℚ}
    (h : q ∈ cap_position_weights l m) : ∃ r ∈ l, q.1 = r.1 := by
  simp only [cap_position_weights] at h
  split at h
  · rcases List.mem_map.mp h with ⟨r, hr, rfl⟩
    exact ⟨r, hr, rfl⟩
  · rcases List.mem_map.mp h with ⟨q', hq', rfl⟩
    rcases List.mem_map.mp hq' with ⟨r, hr, rfl⟩
    exact ⟨r, hr, rfl⟩

theorem mem_classPlanOf {strategy : Strategy} {insts : List (String × ℚ)} {cls : String}
    {q : String × ℚ} (h : q ∈ classPlanOf strategy insts cls) :
    ∃ w : ℚ, q.2 = round6 (clamp01 (aget strategy.alloc_target cls 0) * w)
      ∧ ∃ r ∈ insts, q.1 = r.1 := by
  simp only [classPlanOf] at h
  rcases List.mem_map.mp h with ⟨p2, hp2, rfl⟩
  refine ⟨p2.2, rfl, ?_⟩
  rcases mem_cap_position_weights_key hp2 with ⟨r', hr', hkey⟩
  rcases List.mem_map.mp hr' with ⟨r, hr, rfl⟩
  exact ⟨r, hr, hkey⟩

theorem mem_ordersOf {cp : List (String × ℚ)} {o : Order} (h : o ∈ ordersOf cp) :
    ∃ q ∈ cp, o.instrument_id = q.1 ∧ o.target_weight = q.2
      ∧ o.action = (if 0 < q.2 then "INCREASE" else "HOLD") := by
  unfold ordersOf at h
  rcases List.mem_map.mp h with ⟨q, hq, rfl⟩
  exact ⟨q, hq, rfl, rfl, rfl⟩

/-- Claim C1 (amended): if no raw intra-class confidence weight exceeds
`position_max_pct` (so the cap reduces nothing and no renormalization upscaling
happens), then every order's `target_weight` in the built plan is at most
`position_max_pct + 5e-7` (the 6-decimal rounding slack).  Without that proviso
the renormalization inside `cap_position_weights` can push weights back above
the cap, as `build_plan_weight_above_cap_cex` shows. -/
theorem build_plan_weight_le_cap_of_uncapped (strategy : Strategy) (signals : List Signal)
    (H : ∀ e ∈ buildByClass signals, ∀ p ∈ e.2,
      p.2 ≤ strategy.position_max_pct * sumVals e.2) :
    ∀ o ∈ (build_plan strategy signals).orders,
      o.target_weight ≤ strategy.position_max_pct + 1/2000000 := by
  apply build_plan_orders_inv
  intro e he hne hs o ho
  rcases mem_ordersOf ho with ⟨q, hq, _, htw, _⟩
  have hs' : sumVals e.2 ≠ 0 := ne_of_gt hs
  have hintra_le : ∀ p ∈ e.2.map (fun p => (p.1, p.2 / sumVals e.2)),
      p.2 ≤ strategy.position_max_pct := by
    intro p hp
    rcases List.mem_map.mp hp with ⟨r, hr, rfl⟩
    have := H e he r hr
    rw [div_le_iff₀ hs]
    linarith [this]
  have hintra_nn : ∀ p ∈ e.2.map (fun p => (p.1, p.2 / sumVals e.2)),
      0 ≤ p.2 := by
    intro p hp
    rcases List.mem_map.mp hp with ⟨r, hr, rfl⟩
    exact div_nonneg (buildByClass_inv signals e he r hr).2 (le_of_lt hs)
  have hintra_sum : sumVals (e.2.map (fun p => (p.1, p.2 / sumVals e.2))) = 1 := by
    rw [sumVals_map_div]
    exact div_self hs'
  simp only [classPlanOf] at hq
  rw [cap_position_weights_id hintra_le hintra_sum] at hq
  rcases List.mem_map.mp hq with ⟨p2, hp2, rfl⟩
  have hw_le := hintra_le p2 hp2
  have hw_nn := hintra_nn p2 hp2
  have hcw0 := clamp01_nonneg (aget strategy.alloc_target e.1 0)
  have hcw1 := clamp01_le_one (aget strategy.alloc_target e.1 0)
  rw [htw]
  calc round6 (clamp01 (aget strategy.alloc_target e.1 0) * p2.2)
      ≤ clamp01 (aget strategy.alloc_target e.1 0) * p2.2 + 1/2000000 := round6_le _
    _ ≤ 1 * p2.2 + 1/2000000 := by nlinarith
    _ ≤ strategy.position_max_pct + 1/2000000 := by linarith

/-- Claim C3 (amended): for every class present in a built plan, the class's
instrument weights sum to the policy's clamped class target within
`n * 5e-7`, where `n` is the number of instruments in the class (each weight
is rounded to 6 decimals, so the per-class deviation grows with the class
size; the fixed `1e-6` tolerance of the original claim fails for three or
more instruments, see `plan_class_sum_beyond_tolerance_cex`). -/
theorem plan_class_sum_within_rounding (strategy : Strategy) (signals : List Signal)
    (hm : 0 < strategy.position_max_pct) :
    ∀ e ∈ (build_plan strategy signals).classes,
      |sumVals e.2 - clamp01 (aget strategy.alloc_target e.1 0)|
        ≤ (e.2.length : ℚ) / 2000000 := by
  apply build_plan_classes_inv
  intro e he hne hs
  have hs' : sumVals e.2 ≠ 0 := ne_of_gt hs
  have hintra_nn : ∀ p ∈ e.2.map (fun p => (p.1, p.2 / sumVals e.2)), 0 ≤ p.2 := by
    intro p hp
    rcases List.mem_map.mp hp with ⟨r, hr, rfl⟩
    exact div_nonneg (buildByClass_inv signals e he r hr).2 (le_of_lt hs)
  have hintra_sum : sumVals (e.2.map (fun p => (p.1, p.2 / sumVals e.2))) = 1 := by
    rw [sumVals_map_div]
    exact div_self hs'
  have hcap_pos : 0 < sumVals ((e.2.map (fun p => (p.1, p.2 / sumVals e.2))).map
      (fun p => (p.1, min p.2 strategy.position_max_pct))) :=
    sumVals_nonneg_cap_pos hintra_nn (by rw [hintra_sum]; norm_num) hm
  have hcap_sum : sumVals (cap_position_weights
      (e.2.map (fun p => (p.1, p.2 / sumVals e.2))) strategy.position_max_pct) = 1 :=
    cap_position_weights_sum_one (ne_of_gt hcap_pos)
  show |sumVals (classPlanOf strategy e.2 e.1) - _| ≤ ((classPlanOf strategy e.2 e.1).length : ℚ) / 2000000
  simp only [classPlanOf]
  have hbound := sumVals_round6_mul_bound
    (cap_position_weights (e.2.map (fun p => (p.1, p.2 / sumVals e.2)))
      strategy.position_max_pct)
    (clamp01 (aget strategy.alloc_target e.1 0))
  rw [hcap_sum, mul_one] at hbound
  simpa [List.length_map] using hbound

theorem keys_map_val (g : String × ℚ → ℚ) (l : List (String × ℚ)) :
    keys (l.map (fun p => (p.1, g p))) = keys l := by
  unfold keys
  rw [List.map_map]
  rfl

theorem keys_cap_position_weights (l : List (String × ℚ)) (m : ℚ) :
    keys (cap_position_weights l m) = keys l := by
  simp only [cap_position_weights]
  split
  · exact keys_map_val _ _
  · exact (keys_map_val _ _).trans (keys_map_val _ _)

theorem keys_classPlanOf (strategy : Strategy) (insts : List (String × ℚ)) (cls : String) :
    keys (classPlanOf strategy insts cls) = keys insts := by
  simp only [classPlanOf]
  exact ((keys_map_val _ _).trans (keys_cap_position_weights _ _)).trans (keys_map_val _ _)

theorem build_plan_foldl_mono (strategy : Strategy)
    (l : List (String × List (String × ℚ))) (acc : Plan) :
    (∀ c ∈ acc.classes, c ∈ (l.foldl
        (fun plan e =>
          if e.2 = [] then plan
          else if sumVals e.2 ≤ 0 then plan
          else
            { classes := plan.classes ++ [(e.1, classPlanOf strategy e.2 e.1)],
              orders := plan.orders ++ ordersOf (classPlanOf strategy e.2 e.1) })
        acc).classes)
    ∧ (∀ o ∈ acc.orders, o ∈ (l.foldl
        (fun plan e =>
          if e.2 = [] then plan
          else if sumVals e.2 ≤ 0 then plan
          else
            { classes := plan.classes ++ [(e.1, classPlanOf strategy e.2 e.1)],
              orders := plan.orders ++ ordersOf (classPlanOf strategy e.2 e.1) })
        acc).orders) := by
  induction l generalizing acc with
  | nil => exact ⟨fun c hc => hc, fun o ho => ho⟩
  | cons f rest ih =>
    simp only [List.foldl_cons]
    constructor
    · intro c hc
      refine (ih _).1 c ?_
      by_cases h1 : f.2 = []
      · rw [if_pos h1]
        exact hc
      · rw [if_neg h1]
        by_cases h2 : sumVals f.2 ≤ 0
        · rw [if_pos h2]
          exact hc
        · rw [if_neg h2]
          exact List.mem_append.mpr (Or.inl hc)
    · intro o ho
      refine (ih _).2 o ?_
      by_cases h1 : f.2 = []
      · rw [if_pos h1]
        exact ho
      · rw [if_neg h1]
        by_cases h2 : sumVals f.2 ≤ 0
        · rw [if_pos h2]
          exact ho
        · rw [if_neg h2]
          exact List.mem_append.mpr (Or.inl ho)

theorem build_plan_mem_of_kept (strategy : Strategy) (signals : List Signal) :
    ∀ e ∈ buildByClass signals, e.2 ≠ [] → 0 < sumVals e.2 →
      (e.1, classPlanOf strategy e.2 e.1) ∈ (build_plan strategy signals).classes
      ∧ ∀ o ∈ ordersOf (classPlanOf strategy e.2 e.1),
          o ∈ (build_plan strategy signals).orders := by
  unfold build_plan
  suffices h : ∀ (l : List (String × List (String × ℚ))) (acc : Plan),
      ∀ e ∈ l, e.2 ≠ [] → 0 < sumVals e.2 →
      (e.1, classPlanOf strategy e.2 e.1) ∈ (l.foldl
        (fun plan e =>
          if e.2 = [] then plan
          else if sumVals e.2 ≤ 0 then plan
          else
            { classes := plan.classes ++ [(e.1, classPlanOf strategy e.2 e.1)],
              orders := plan.orders ++ ordersOf (classPlanOf strategy e.2 e.1) })
        acc).classes
      ∧ ∀ o ∈ ordersOf (classPlanOf strategy e.2 e.1), o ∈ (l.foldl
        (fun plan e =>
          if e.2 = [] then plan
          else if sumVals e.2 ≤ 0 then plan
          else
            { classes := plan.classes ++ [(e.1, classPlanOf strategy e.2 e.1)],
              orders := plan.orders ++ ordersOf (classPlanOf strategy e.2 e.1) })
        acc).orders by
    exact fun e he hne hs => h (buildByClass signals) { classes := [], orders := [] } e he hne hs
  intro l
  induction l with
  | nil =>
    intro acc e he
    simp at he
  | cons f rest ih =>
    intro acc e he hne hs
    rcases List.mem_cons.mp he with rfl | he'
    · simp only [List.foldl_cons]
      rw [if_neg hne, if_neg (not_le.mpr hs)]
      constructor
      · exact (build_plan_foldl_mono strategy rest _).1 _
          (List.mem_append.mpr (Or.inr (List.mem_singleton.mpr rfl)))
      · intro o ho
        exact (build_plan_foldl_mono strategy rest _).2 o
          (List.mem_append.mpr (Or.inr ho))
    · simp only [List.foldl_cons]
      exact ih _ e he' hne hs

/-- Claim C5 (amended): a class whose signals have positive aggregate
confidence but which has no entry in the policy's `alloc_target` is NOT
dropped from the plan: build_plan keeps it, producing a classes entry with
one weight per instrument (same keys), every kept weight equal to 0, and one
`HOLD` order with `target_weight` 0 among the plan's orders for each of its
instruments (see `zero_weight_class_not_dropped_cex`). -/
theorem zero_weight_class_kept (strategy : Strategy) (signals : List Signal) :
    ∀ e ∈ buildByClass signals, 0 < sumVals e.2 →
      alookup strategy.alloc_target e.1 = none →
      ∃ cp, (e.1, cp) ∈ (build_plan strategy signals).classes
        ∧ keys cp = keys e.2
        ∧ (∀ p ∈ cp, p.2 = 0)
        ∧ ∀ p ∈ cp, (⟨p.1, "HOLD", 0⟩ : Order) ∈ (build_plan strategy signals).orders := by
  intro e he hs hnone
  have hne : e.2 ≠ [] := by
    intro h0
    rw [h0] at hs
    simp [sumVals] at hs
  obtain ⟨hmemc, hmemo⟩ := build_plan_mem_of_kept strategy signals e he hne hs
  have hcw : clamp01 (aget strategy.alloc_target e.1 0) = 0 := by
    unfold aget
    rw [hnone]
    norm_num [clamp01]
  have hzero : ∀ p ∈ classPlanOf strategy e.2 e.1, p.2 = 0 := by
    intro p hp
    rcases mem_classPlanOf hp with ⟨w, hval, _⟩
    rw [hval, hcw, zero_mul, round6_zero]
  refine ⟨classPlanOf strategy e.2 e.1, hmemc, keys_classPlanOf _ _ _, hzero, ?_⟩
  intro p hp
  apply hmemo
  unfold ordersOf
  apply List.mem_map.mpr
  refine ⟨p, hp, ?_⟩
  have hp0 := hzero p hp
  simp [hp0]

/-- Claim C8: `build_plan` is a pure function of the signal list and the
policy, so two runs on identical inputs produce identical plans (classes map
and orders list, including order of entries). -/
theorem build_plan_deterministic (strategy : Strategy) (signals : List Signal)
    (p1 p2 : Plan) (h1 : p1 = build_plan strategy signals)
    (h2 : p2 = build_plan strategy signals) :
    p1.classes = p2.classes ∧ p1.orders = p2.orders := by
  subst h1
  subst h2
  exact ⟨rfl, rfl⟩

/-! String helpers modelling Python `str` operations on the repository's
ASCII symbols. -/

/-- Code-point lexicographic comparison, the order Python `sorted` uses on
strings. -/
def charsLe : List Char → List Char → Bool
  | [], _ => true
  | _ :: _, [] => false
  | a :: as, b :: bs =>
    if a.val < b.val then true else if b.val < a.val then false else charsLe as bs

/-- Python `sorted(...)` on strings. -/
def pySorted (l : List String) : List String :=
  l.insertionSort (fun a b => charsLe a.data b.data = true)

/-- Python `sorted(set(a) - set(b))`. -/
def sortedSetDiff (a b : List String) : List String :=
  pySorted ((a.filter (fun k => !(b.contains k))).dedup)

/-- Python `s.upper()` (character-wise; the repository's symbols are ASCII). -/
def pyUpper (s : String) : String := ⟨s.data.map Char.toUpper⟩

/-- Python `s.strip()`: drop whitespace from both ends. -/
def pyStrip (s : String) : String :=
  ⟨((s.data.dropWhile Char.isWhitespace).reverse.dropWhile Char.isWhitespace).reverse⟩

theorem mem_pySorted {a : String} {l : List String} : a ∈ pySorted l ↔ a ∈ l := by
  unfold pySorted
  exact (List.perm_insertionSort _ l).mem_iff

theorem mem_sortedSetDiff {x : String} {a b : List String} :
    x ∈ sortedSetDiff a b ↔ x ∈ a ∧ x ∉ b := by
  unfold sortedSetDiff
  rw [mem_pySorted, List.mem_dedup, List.mem_filter]
  simp

/-! The Plan Validator (`run_validate.py`: `main`). -/

/-- The diagnostics appended to `errors` / `warnings` by the validator,
identified by content (the formatted message strings carry no further
information relevant to the checks). -/
inductive VMsg where
  | allocTargetMissing : VMsg
  | allocSumNonpos : VMsg
  | allocSumOffOne (s_alloc : ℚ) : VMsg
  | planEmpty : VMsg
  | unknownClasses (cs : List String) : VMsg
  | missingClasses (cs : List String) : VMsg
  | bandViolation (cls : String) (target actual : ℚ) : VMsg
  | totalWeightOffOne (total : ℚ) : VMsg
  | positionOverLimit (inst cls : String) (w : ℚ) : VMsg
deriving DecidableEq

/-- The validator's `class_sums` dict. -/
def classSumsOf (classes : List (String × List (String × ℚ))) : List (String × ℚ) :=
  classes.foldl (fun acc c => aset acc c.1 (sumVals c.2)) []

/-- The band-check loop over `alloc_target.items()`: an error whenever the
realized class sum (`class_sums.get(cls, 0.0)`, so 0 for a class absent from
the plan) lies outside `[target - bands - 1e-6, target + bands + 1e-6]`. -/
def bandErrorsOf (alloc_target : List (String × ℚ)) (bands : ℚ)
    (class_sums : List (String × ℚ)) : List VMsg :=
  alloc_target.foldl
    (fun acc p =>
      if aget class_sums p.1 0 < p.2 - bands - 1/1000000
          ∨ p.2 + bands + 1/1000000 < aget class_sums p.1 0
      then acc ++ [VMsg.bandViolation p.1 p.2 (aget class_sums p.1 0)] else acc)
    []

/-- The per-position limit loop: collects `(inst, cls, w)` with
`w > pos_max + 1e-9`. -/
def violatorsOf (classes : List (String × List (String × ℚ))) (pos_max : ℚ) :
    List (String × String × ℚ) :=
  classes.foldl
    (fun acc c =>
      c.2.foldl
        (fun acc2 p =>
          if pos_max + 1/1000000000 < p.2 then acc2 ++ [(p.1, c.1, p.2)] else acc2)
        acc)
    []

/-- `sorted(violators, key=lambda x: -x[2])`: descending by weight. -/
def sortViolators (vs : List (String × String × ℚ)) : List (String × String × ℚ) :=
  vs.insertionSort (fun x y => y.2.2 ≤ x.2.2)

/-- The validator's report (`out/validation.json` record, without the
timestamp and the echoed policy fields). -/
structure VReport where
  errors : List VMsg
  warnings : List VMsg
  class_sums : List (String × ℚ)
  total_weight : ℚ
  status : String

/-- `run_validate.py` `main`: the full check sequence, given the loaded
policy fields (`alloc_target`, `rebalance.bands`, `risk_limits.position_max_pct`)
and the plan's `classes` map; the file-reading error paths are outside the
model (the inputs are given).  Checks appear in source order, and none
short-circuits any other. -/
def run_validate_main (alloc_target : List (String × ℚ)) (bands pos_max : ℚ)
    (classes : List (String × List (String × ℚ))) : VReport :=
  let s_alloc := sumVals alloc_target
  let errs1 : List VMsg :=
    if alloc_target = [] then [VMsg.allocTargetMissing]
    else if s_alloc ≤ 0 then [VMsg.allocSumNonpos]
    else []
  let warns1 : List VMsg :=
    if alloc_target = [] then []
    else if s_alloc ≤ 0 then []
    else if 1/1000000 < |s_alloc - 1| then [VMsg.allocSumOffOne s_alloc]
    else []
  let errs2 : List VMsg := if classes = [] then [VMsg.planEmpty] else []
  let unknown := sortedSetDiff (keys classes) (keys alloc_target)
  let warns2 : List VMsg := if unknown = [] then [] else [VMsg.unknownClasses unknown]
  let missing := sortedSetDiff (keys alloc_target) (keys classes)
  let warns3 : List VMsg := if missing = [] then [] else [VMsg.missingClasses missing]
  let class_sums := classSumsOf classes
  let errs3 := bandErrorsOf alloc_target bands class_sums
  let total_weight := sumVals class_sums
  let errs4 : List VMsg :=
    if 1/1000 < |total_weight - 1| then [VMsg.totalWeightOffOne total_weight] else []
  let errs5 := (sortViolators (violatorsOf classes pos_max)).map
    (fun v => VMsg.positionOverLimit v.1 v.2.1 v.2.2)
  let errors := errs1 ++ errs2 ++ errs3 ++ errs4 ++ errs5
  let warnings := warns1 ++ warns2 ++ warns3
  { errors := errors, warnings := warnings, class_sums := class_sums,
    total_weight := total_weight, status := if errors = [] then "OK" else "FAIL" }

theorem bandErrorsOf_eq_filterMap (a : List (String × ℚ)) (b : ℚ)
    (cs : List (String × ℚ)) :
    bandErrorsOf a b cs = a.filterMap (fun p =>
      if aget cs p.1 0 < p.2 - b - 1/1000000 ∨ p.2 + b + 1/1000000 < aget cs p.1 0
      then some (VMsg.bandViolation p.1 p.2 (aget cs p.1 0)) else none) := by
  unfold bandErrorsOf
  suffices h : ∀ (init : List VMsg), a.foldl
      (fun acc p =>
        if aget cs p.1 0 < p.2 - b - 1/1000000 ∨ p.2 + b + 1/1000000 < aget cs p.1 0
        then acc ++ [VMsg.bandViolation p.1 p.2 (aget cs p.1 0)] else acc) init
      = init ++ a.filterMap (fun p =>
        if aget cs p.1 0 < p.2 - b - 1/1000000 ∨ p.2 + b + 1/1000000 < aget cs p.1 0
        then some (VMsg.bandViolation p.1 p.2 (aget cs p.1 0)) else none) by
    simpa using h []
  induction a with
  | nil => intro init; simp
  | cons p rest ih =>
    intro init
    simp only [List.foldl_cons, List.filterMap_cons]
    by_cases hc : aget cs p.1 0 < p.2 - b - 1/1000000 ∨ p.2 + b + 1/1000000 < aget cs p.1 0
    · rw [if_pos hc, if_pos hc, ih]
      simp
    · rw [if_neg hc, if_neg hc, ih]

theorem classSumsOf_alookup_none {classes : List (String × List (String × ℚ))}
    {cls : String} (h : cls ∉ keys classes) :
    alookup (classSumsOf classes) cls = none := by
  unfold classSumsOf
  suffices h' : ∀ (init : List (String × ℚ)), alookup init cls = none →
      cls ∉ keys classes →
      alookup (classes.foldl (fun acc c => aset acc c.1 (sumVals c.2)) init) cls = none by
    exact h' [] rfl h
  clear h
  induction classes with
  | nil => intro init hi _; simpa using hi
  | cons c rest ih =>
    intro init hi hc
    simp only [keys, List.map_cons, List.mem_cons] at hc
    push_neg at hc
    simp only [List.foldl_cons]
    apply ih _ _ (by simpa [keys] using hc.2)
    rw [alookup_aset_ne _ _ (fun hk => hc.1 hk.symm)]
    exact hi

theorem errors_shape (a : List (String × ℚ)) (b p : ℚ)
    (c : List (String × List (String × ℚ))) :
    ∀ m ∈ (run_validate_main a b p c).errors,
      m = VMsg.allocTargetMissing ∨ m = VMsg.allocSumNonpos ∨ m = VMsg.planEmpty
      ∨ (∃ x y z, m = VMsg.bandViolation x y z)
      ∨ (∃ t, m = VMsg.totalWeightOffOne t)
      ∨ (∃ i cl w, m = VMsg.positionOverLimit i cl w) := by
  intro m hm
  simp only [run_validate_main] at hm
  rcases List.mem_append.mp hm with hm' | hm5
  · rcases List.mem_append.mp hm' with hm'' | hm4
    · rcases List.mem_append.mp hm'' with hm''' | hm3
      · rcases List.mem_append.mp hm''' with hm1 | hm2
        · split at hm1
          · left
            simpa using hm1
          · split at hm1
            · right; left
              simpa using hm1
            · simp at hm1
        · split at hm2
          · right; right; left
            simpa using hm2
          · simp at hm2
      · rw [bandErrorsOf_eq_filterMap] at hm3
        rcases List.mem_filterMap.mp hm3 with ⟨q, _, hq⟩
        split at hq
        · right; right; right; left
          exact ⟨q.1, q.2, aget (classSumsOf c) q.1 0, (Option.some.inj hq).symm⟩
        · simp at hq
    · split at hm4
      · right; right; right; right; left
        exact ⟨sumVals (classSumsOf c), by simpa using hm4⟩
      · simp at hm4
  · rcases List.mem_map.mp hm5 with ⟨v, _, hv⟩
    right; right; right; right; right
    exact ⟨v.1, v.2.1, v.2.2, hv.symm⟩

/-- Claim C6 (amended): when `alloc_target` is present with a positive sum
that differs from 1 by more than `1e-6`, the validator records this as a
WARNING, not an error: the warning entry is always added, and no entry of the
errors list ever concerns the alloc-target sum being off 1 (errors mention
`alloc_target` only when it is missing or sums to ≤ 0).  See
`alloc_sum_off_not_error_cex`. -/
theorem alloc_sum_off_is_warning (alloc_target : List (String × ℚ)) (bands pos_max : ℚ)
    (classes : List (String × List (String × ℚ)))
    (hne : alloc_target ≠ []) (hpos : 0 < sumVals alloc_target)
    (hoff : 1/1000000 < |sumVals alloc_target - 1|) :
    VMsg.allocSumOffOne (sumVals alloc_target)
        ∈ (run_validate_main alloc_target bands pos_max classes).warnings
    ∧ VMsg.allocSumOffOne (sumVals alloc_target)
        ∉ (run_validate_main alloc_target bands pos_max classes).errors := by
  constructor
  · simp only [run_validate_main]
    apply List.mem_append.mpr
    left
    apply List.mem_append.mpr
    left
    rw [if_neg hne, if_neg (not_le.mpr hpos), if_pos hoff]
    exact List.mem_singleton.mpr rfl
  · intro hmem
    rcases errors_shape alloc_target bands pos_max classes _ hmem with
      h | h | h | ⟨x, y, z, h⟩ | ⟨t, h⟩ | ⟨i, cl, w, h⟩ <;> simp at h

/-- Claim C7 (amended): a policy class absent from the plan does get the
"missing class" warning, but the band check still RUNS for it with realized
weight 0 (`class_sums.get(cls, 0.0)`), so a band-violation error is reported
for the absent class whenever 0 lies outside its band; band errors are not
restricted to classes present in the plan.  See
`missing_class_band_error_cex`. -/
theorem missing_class_band_check_runs (alloc_target : List (String × ℚ))
    (bands pos_max : ℚ) (classes : List (String × List (String × ℚ)))
    (cls : String) (target : ℚ) (hmem : (cls, target) ∈ alloc_target)
    (habs : cls ∉ keys classes) :
    (cls ∈ sortedSetDiff (keys alloc_target) (keys classes)
      ∧ VMsg.missingClasses (sortedSetDiff (keys alloc_target) (keys classes))
          ∈ (run_validate_main alloc_target bands pos_max classes).warnings)
    ∧ (0 < target - bands - 1/1000000 ∨ target + bands + 1/1000000 < 0 →
        VMsg.bandViolation cls target 0
          ∈ (run_validate_main alloc_target bands pos_max classes).errors) := by
  have hkeys : cls ∈ keys alloc_target := List.mem_map.mpr ⟨(cls, target), hmem, rfl⟩
  have hdiff : cls ∈ sortedSetDiff (keys alloc_target) (keys classes) :=
    mem_sortedSetDiff.mpr ⟨hkeys, habs⟩
  have hzero : aget (classSumsOf classes) cls 0 = 0 := by
    unfold aget
    rw [classSumsOf_alookup_none habs]
    rfl
  constructor
  · refine ⟨hdiff, ?_⟩
    simp only [run_validate_main]
    apply List.mem_append.mpr
    right
    have hne : sortedSetDiff (keys alloc_target) (keys classes) ≠ [] := by
      intro h0
      rw [h0] at hdiff
      simp at hdiff
    rw [if_neg hne]
    exact List.mem_singleton.mpr rfl
  · intro hcond
    simp only [run_validate_main]
    apply List.mem_append.mpr
    left
    apply List.mem_append.mpr
    left
    apply List.mem_append.mpr
    right
    rw [bandErrorsOf_eq_filterMap]
    apply List.mem_filterMap.mpr
    refine ⟨(cls, target), hmem, ?_⟩
    rw [if_pos]
    · rw [hzero]
    · rw [hzero]
      exact hcond

/-! The Paper Execution Engine (`interfaces/broker_adapter/paper.py`). -/

/-- The outcome of one call to the external `latest_price` feed: a returned
number, a returned `None`, or a raised exception. -/
inductive FeedResult where
  | ok (p : ℚ) : FeedResult
  | missing : FeedResult
  | failed : FeedResult

/-- `paper.py`: `_FALLBACK_PRICE_MAP`. -/
def fallbackPriceMap : List (String × ℚ) :=
  [("BTC", 65000), ("ETH", 3500), ("SOL", 160), ("ADA", 0.42), ("DOGE", 0.15),
   ("VOO", 520), ("QQQ", 470), ("VGK", 70), ("EZU", 55),
   ("AAPL", 230.10), ("MSFT", 415.30), ("NVDA", 122.90), ("GOOGL", 175.10),
   ("AMZN", 190.75), ("ASML", 1150), ("LVMH", 730), ("SAP", 200),
   ("IEF", 100), ("TLT", 100), ("SHY", 100), ("IEGA", 100), ("IEAC", 100),
   ("LQD", 100), ("VNQ", 90), ("IPRP", 6), ("PLD", 120), ("O", 55), ("SPG", 150)]

/-- `paper.py`: `get_exec_price`: the feed's value when it is a number > 0;
otherwise the static per-symbol fallback; otherwise `100.0`. -/
def get_exec_price (feed : String → FeedResult) (inst : String) : ℚ :=
  let sym := pyUpper (pyStrip inst)
  match feed sym with
  | FeedResult.ok p => if 0 < p then p else aget fallbackPriceMap sym 100
  | FeedResult.missing => aget fallbackPriceMap sym 100
  | FeedResult.failed => aget fallbackPriceMap sym 100

/-- `paper.py`: `is_crypto`. -/
def is_crypto (inst : String) : Bool :=
  (["BTC", "ETH", "SOL", "ADA", "DOGE"] : List String).contains (pyUpper inst)

/-- The mutable portfolio state of one execution cycle: the `positions`
market-value dict and the `cash_eur` balance. -/
structure PortState where
  positions : List (String × ℚ)
  cash : ℚ

/-- The target-weight map built from `plan["orders"]`: ids stripped and
uppercased, empty ids skipped, duplicates merged by maximum
(`target_w[inst] = max(tw, target_w.get(inst, 0.0))`). -/
def buildTargetW (plan_orders : List Order) : List (String × ℚ) :=
  plan_orders.foldl
    (fun tw o =>
      let inst := pyUpper (pyStrip o.instrument_id)
      if inst = "" then tw
      else aset tw inst (max o.target_weight (aget tw inst 0)))
    []

/-- The quantity the phase-1 liquidation sells for a held instrument:
fractional (rounded to 6 decimals) for crypto, floored integer otherwise. -/
def sellQty (feed : String → FeedResult) (inst : String) (cur_mv : ℚ) : ℚ :=
  if is_crypto inst then round6 (cur_mv / get_exec_price feed inst)
  else ((⌊cur_mv / get_exec_price feed inst⌋ : ℤ) : ℚ)

/-- Phase 1 of `main` for one held instrument: sell the whole holding when it
has no target weight; skip when the holding is non-positive, the price is
unusable, or the quantity floors/rounds to zero. -/
def sellStep (feed : String → FeedResult) (target_w : List (String × ℚ))
    (st : PortState) (inst : String) : PortState :=
  if (alookup target_w inst).isSome then st
  else
    let cur_mv := aget st.positions inst 0
    if cur_mv ≤ 0 then st
    else
      let price := get_exec_price feed inst
      if price ≤ 0 then st
      else
        let qty := sellQty feed inst cur_mv
        if qty ≤ 0 then st
        else
          { positions := aset st.positions inst (max 0 (cur_mv - qty * price)),
            cash := st.cash + qty * price }

/-- Phase 1 of `main`: the liquidation loop over `list(positions.keys())`. -/
def phase1 (feed : String → FeedResult) (target_w : List (String × ℚ))
    (st : PortState) : PortState :=
  (keys st.positions).foldl (sellStep feed target_w) st

/-- The market value a held instrument retains after its own phase-1 step
(`sellStep` leaves every other key untouched). -/
def sellResidual (feed : String → FeedResult) (inst : String) (cur_mv : ℚ) : ℚ :=
  if cur_mv ≤ 0 then cur_mv
  else if get_exec_price feed inst ≤ 0 then cur_mv
  else if sellQty feed inst cur_mv ≤ 0 then cur_mv
  else max 0 (cur_mv - sellQty feed inst cur_mv * get_exec_price feed inst)

/-- Phase 2 of `main` for one `(inst, tw)` pair: buy or sell the difference
between `nav * tw` and the current market value, bounded by available cash
resp. the current holding, with the crypto/non-crypto lot rule. -/
def rebalStep (feed : String → FeedResult) (nav : ℚ) (st : PortState)
    (itw : String × ℚ) : PortState :=
  let price := get_exec_price feed itw.1
  if price ≤ 0 then st
  else
    let cur_mv := aget st.positions itw.1 0
    let delta := nav * itw.2 - cur_mv
    if |delta| < 1/1000000 then st
    else if 0 < delta then
      let buy_amt := min delta st.cash
      if buy_amt ≤ 0 then st
      else if is_crypto itw.1 then
        { positions := aset st.positions itw.1 (cur_mv + round6 (buy_amt / price) * price),
          cash := st.cash - round6 (buy_amt / price) * price }
      else if ((⌊buy_amt / price⌋ : ℤ) : ℚ) ≤ 0 then st
      else
        { positions := aset st.positions itw.1 (cur_mv + ((⌊buy_amt / price⌋ : ℤ) : ℚ) * price),
          cash := st.cash - ((⌊buy_amt / price⌋ : ℤ) : ℚ) * price }
    else
      let sell_amt := min (-delta) cur_mv
      if sell_amt ≤ 0 then st
      else if is_crypto itw.1 then
        { positions := aset st.positions itw.1 (cur_mv - round6 (sell_amt / price) * price),
          cash := st.cash + round6 (sell_amt / price) * price }
      else if ((⌊sell_amt / price⌋ : ℤ) : ℚ) ≤ 0 then st
      else
        { positions := aset st.positions itw.1 (cur_mv - ((⌊sell_amt / price⌋ : ℤ) : ℚ) * price),
          cash := st.cash + ((⌊sell_amt / price⌋ : ℤ) : ℚ) * price }

/-- Phase 3 cleanup: positions below `1e-6` in absolute value become 0, then
non-positive positions are dropped. -/
def prunePositions (ps : List (String × ℚ)) : List (String × ℚ) :=
  (ps.map (fun p => if |p.2| < 1/1000000 then (p.1, 0) else p)).filter
    (fun p => decide (0 < p.2))

/-- `paper.py` `main`: one full execution cycle on the portfolio state.
Between the phases the stored cash is rounded to 6 decimals for the NAV
computation while the working cash variable stays unrounded, exactly as in
the source; execution records, timestamps and file persistence do not feed
back into the state and are omitted. -/
def paper_main (feed : String → FeedResult) (plan_orders : List Order)
    (port : PortState) : PortState :=
  let target_w := buildTargetW plan_orders
  let st1 := phase1 feed target_w port
  let nav := round6 st1.cash + sumVals st1.positions
  let st2 := target_w.foldl (rebalStep feed nav) st1
  { positions := prunePositions st2.positions, cash := round6 st2.cash }

/-- The `nav` recorded in the portfolio history at the end of a cycle:
`round(current_nav(port), 6)` on the final stored state. -/
def recordedNav (st : PortState) : ℚ := round6 (st.cash + sumVals st.positions)

/-! Positivity of the execution price. -/

theorem fallback_price_pos : ∀ p ∈ fallbackPriceMap, 0 < p.2 := by
  intro p hp
  fin_cases hp <;> norm_num

theorem aget_fallback_pos (sym : String) : 0 < aget fallbackPriceMap sym 100 := by
  unfold aget
  cases h : alookup fallbackPriceMap sym with
  | none => norm_num
  | some v => exact fallback_price_pos _ (alookup_mem h)

theorem get_exec_price_pos (feed : String → FeedResult) (inst : String) :
    0 < get_exec_price feed inst := by
  simp only [get_exec_price]
  cases feed (pyUpper (pyStrip inst)) with
  | ok p =>
    show 0 < if 0 < p then p else aget fallbackPriceMap (pyUpper (pyStrip inst)) 100
    by_cases h : 0 < p
    · rw [if_pos h]
      exact h
    · rw [if_neg h]
      exact aget_fallback_pos _
  | missing => exact aget_fallback_pos _
  | failed => exact aget_fallback_pos _

/-! Phase-1 lemmas. -/

theorem aget_aset_self {α : Type} (l : List (String × α)) (k : String) (v d : α) :
    aget (aset l k v) k d = v := by
  unfold aget
  rw [alookup_aset_self]
  rfl

theorem sellStep_cash_mono (feed : String → FeedResult) (tw : List (String × ℚ))
    (st : PortState) (inst : String) :
    st.cash ≤ (sellStep feed tw st inst).cash := by
  simp only [sellStep]
  by_cases h1 : (alookup tw inst).isSome
  · rw [if_pos h1]
  · rw [if_neg h1]
    by_cases h2 : aget st.positions inst 0 ≤ 0
    · rw [if_pos h2]
    · rw [if_neg h2]
      by_cases h3 : get_exec_price feed inst ≤ 0
      · rw [if_pos h3]
      · rw [if_neg h3]
        by_cases h4 : sellQty feed inst (aget st.positions inst 0) ≤ 0
        · rw [if_pos h4]
        · rw [if_neg h4]
          show st.cash ≤ st.cash + _ * _
          have := mul_pos (lt_of_not_le h4) (lt_of_not_le h3)
          linarith

theorem sellStep_other (feed : String → FeedResult) (tw : List (String × ℚ))
    (st : PortState) (inst inst' : String) (h : inst ≠ inst') :
    aget (sellStep feed tw st inst).positions inst' 0 = aget st.positions inst' 0 := by
  simp only [sellStep]
  by_cases h1 : (alookup tw inst).isSome
  · rw [if_pos h1]
  · rw [if_neg h1]
    by_cases h2 : aget st.positions inst 0 ≤ 0
    · rw [if_pos h2]
    · rw [if_neg h2]
      by_cases h3 : get_exec_price feed inst ≤ 0
      · rw [if_pos h3]
      · rw [if_neg h3]
        by_cases h4 : sellQty feed inst (aget st.positions inst 0) ≤ 0
        · rw [if_pos h4]
        · rw [if_neg h4]
          exact aget_aset_ne _ _ _ h

theorem sellStep_self_value (feed : String → FeedResult) (tw : List (String × ℚ))
    (st : PortState) (inst : String) (htw : alookup tw inst = none) :
    aget (sellStep feed tw st inst).positions inst 0
      = sellResidual feed inst (aget st.positions inst 0) := by
  simp only [sellStep, sellResidual]
  rw [if_neg (by rw [htw]; simp)]
  by_cases h2 : aget st.positions inst 0 ≤ 0
  · rw [if_pos h2, if_pos h2]
  · rw [if_neg h2, if_neg h2]
    by_cases h3 : get_exec_price feed inst ≤ 0
    · rw [if_pos h3, if_pos h3]
    · rw [if_neg h3, if_neg h3]
      by_cases h4 : sellQty feed inst (aget st.positions inst 0) ≤ 0
      · rw [if_pos h4, if_pos h4]
      · rw [if_neg h4, if_neg h4]
        exact aget_aset_self _ _ _ _

theorem foldl_sellStep_cash_mono (feed : String → FeedResult) (tw : List (String × ℚ))
    (ks : List String) (st : PortState) :
    st.cash ≤ (ks.foldl (sellStep feed tw) st).cash := by
  induction ks generalizing st with
  | nil => exact le_refl _
  | cons k rest ih =>
    exact le_trans (sellStep_cash_mono feed tw st k) (ih _)

theorem foldl_sellStep_value_notmem (feed : String → FeedResult)
    (tw : List (String × ℚ)) (ks : List String) (st : PortState) (inst : String)
    (h : inst ∉ ks) :
    aget ((ks.foldl (sellStep feed tw) st).positions) inst 0
      = aget st.positions inst 0 := by
  induction ks generalizing st with
  | nil => rfl
  | cons k rest ih =>
    have hk : k ≠ inst := fun hk => h (hk ▸ List.mem_cons_self _ _)
    have hrest : inst ∉ rest := fun hr => h (List.mem_cons_of_mem _ hr)
    simp only [List.foldl_cons]
    rw [ih _ hrest]
    exact sellStep_other feed tw st k inst hk

theorem foldl_sellStep_value (feed : String → FeedResult) (tw : List (String × ℚ))
    (ks : List String) (st : PortState) (inst : String)
    (hnd : ks.Nodup) (hmem : inst ∈ ks) (htw : alookup tw inst = none) :
    aget ((ks.foldl (sellStep feed tw) st).positions) inst 0
      = sellResidual feed inst (aget st.positions inst 0) := by
  induction ks generalizing st with
  | nil => simp at hmem
  | cons k rest ih =>
    rcases List.mem_cons.mp hmem with rfl | hmem'
    · simp only [List.foldl_cons]
      rw [foldl_sellStep_value_notmem _ _ _ _ _ (List.nodup_cons.mp hnd).1]
      exact sellStep_self_value feed tw st inst htw
    · have hk : k ≠ inst := by
        intro hk
        exact (List.nodup_cons.mp hnd).1 (hk ▸ hmem')
      simp only [List.foldl_cons]
      rw [ih _ (List.nodup_cons.mp hnd).2 hmem']
      rw [sellStep_other feed tw st k inst hk]

theorem sellResidual_bound (feed : String → FeedResult) (inst : String) (cur : ℚ)
    (hcur : 0 < cur) :
    (is_crypto inst = true →
      sellResidual feed inst cur ≤ get_exec_price feed inst / 2000000)
    ∧ (is_crypto inst = false →
      sellResidual feed inst cur < get_exec_price feed inst) := by
  have hp := get_exec_price_pos feed inst
  constructor
  · intro hcr
    simp only [sellResidual, sellQty, hcr, if_true]
    rw [if_neg (not_le.mpr hcur), if_neg (not_le.mpr hp)]
    by_cases h4 : round6 (cur / get_exec_price feed inst) ≤ 0
    · rw [if_pos h4]
      have hr := le_round6 (cur / get_exec_price feed inst)
      have h5 : cur / get_exec_price feed inst ≤ 1/2000000 := by linarith
      rw [div_le_div_iff₀ hp (by norm_num : (0:ℚ) < 2000000)] at h5
      linarith
    · rw [if_neg h4]
      have hr := le_round6 (cur / get_exec_price feed inst)
      have hc : (cur / get_exec_price feed inst) * get_exec_price feed inst = cur :=
        div_mul_cancel₀ _ (ne_of_gt hp)
      have hstep : (cur / get_exec_price feed inst - 1/2000000) * get_exec_price feed inst
          ≤ round6 (cur / get_exec_price feed inst) * get_exec_price feed inst :=
        mul_le_mul_of_nonneg_right hr (le_of_lt hp)
      rw [sub_mul, hc] at hstep
      have he : (1/2000000 : ℚ) * get_exec_price feed inst
          = get_exec_price feed inst / 2000000 := by ring
      rw [he] at hstep
      apply max_le
      · positivity
      · linarith
  · intro hcr
    simp only [sellResidual, sellQty, hcr, Bool.false_eq_true, if_false]
    rw [if_neg (not_le.mpr hcur), if_neg (not_le.mpr hp)]
    by_cases h4 : ((⌊cur / get_exec_price feed inst⌋ : ℤ) : ℚ) ≤ 0
    · rw [if_pos h4]
      have hlt := Int.lt_floor_add_one (cur / get_exec_price feed inst)
      have : cur / get_exec_price feed inst < 1 := by
        have : ((⌊cur / get_exec_price feed inst⌋ : ℤ) : ℚ) + 1 ≤ 1 := by linarith
        linarith
      rw [div_lt_one hp] at this
      exact this
    · rw [if_neg h4]
      have hfl := Int.floor_le (cur / get_exec_price feed inst)
      have hlt := Int.lt_floor_add_one (cur / get_exec_price feed inst)
      apply max_lt hp
      have hmul : (cur / get_exec_price feed inst) * get_exec_price feed inst
          < (((⌊cur / get_exec_price feed inst⌋ : ℤ) : ℚ) + 1) * get_exec_price feed inst :=
        mul_lt_mul_of_pos_right hlt hp
      rw [div_mul_cancel₀ _ (ne_of_gt hp), add_mul, one_mul] at hmul
      linarith

/-! Phase-2 lemmas. -/

theorem rebalStep_cash_nonneg (feed : String → FeedResult) (nav : ℚ) (st : PortState)
    (itw : String × ℚ) (hcr : is_crypto itw.1 = false) (h : 0 ≤ st.cash) :
    0 ≤ (rebalStep feed nav st itw).cash := by
  simp only [rebalStep, hcr, Bool.false_eq_true, if_false]
  by_cases h1 : get_exec_price feed itw.1 ≤ 0
  · rw [if_pos h1]
    exact h
  · rw [if_neg h1]
    have hp : 0 < get_exec_price feed itw.1 := lt_of_not_le h1
    by_cases h2 : |nav * itw.2 - aget st.positions itw.1 0| < 1/1000000
    · rw [if_pos h2]
      exact h
    · rw [if_neg h2]
      by_cases h3 : 0 < nav * itw.2 - aget st.positions itw.1 0
      · rw [if_pos h3]
        by_cases h4 : min (nav * itw.2 - aget st.positions itw.1 0) st.cash ≤ 0
        · rw [if_pos h4]
          exact h
        · rw [if_neg h4]
          by_cases h5 : ((⌊min (nav * itw.2 - aget st.positions itw.1 0) st.cash
              / get_exec_price feed itw.1⌋ : ℤ) : ℚ) ≤ 0
          · rw [if_pos h5]
            exact h
          · rw [if_neg h5]
            show 0 ≤ st.cash - _ * _
            have hfl := Int.floor_le (min (nav * itw.2 - aget st.positions itw.1 0) st.cash
              / get_exec_price feed itw.1)
            have hmul : ((⌊min (nav * itw.2 - aget st.positions itw.1 0) st.cash
                / get_exec_price feed itw.1⌋ : ℤ) : ℚ) * get_exec_price feed itw.1
                ≤ (min (nav * itw.2 - aget st.positions itw.1 0) st.cash
                  / get_exec_price feed itw.1) * get_exec_price feed itw.1 :=
              mul_le_mul_of_nonneg_right hfl (le_of_lt hp)
            rw [div_mul_cancel₀ _ (ne_of_gt hp)] at hmul
            have hmin : min (nav * itw.2 - aget st.positions itw.1 0) st.cash ≤ st.cash :=
              min_le_right _ _
            linarith
      · rw [if_neg h3]
        by_cases h4 : min (-(nav * itw.2 - aget st.positions itw.1 0))
            (aget st.positions itw.1 0) ≤ 0
        · rw [if_pos h4]
          exact h
        · rw [if_neg h4]
          by_cases h5 : ((⌊min (-(nav * itw.2 - aget st.positions itw.1 0))
              (aget st.positions itw.1 0) / get_exec_price feed itw.1⌋ : ℤ) : ℚ) ≤ 0
          · rw [if_pos h5]
            exact h
          · rw [if_neg h5]
            show 0 ≤ st.cash + _ * _
            have := mul_pos (lt_of_not_le h5) hp
            linarith

theorem foldl_rebal_cash_nonneg (feed : String → FeedResult) (nav : ℚ)
    (tws : List (String × ℚ)) (st : PortState)
    (hcr : ∀ itw ∈ tws, is_crypto itw.1 = false) (h : 0 ≤ st.cash) :
    0 ≤ (tws.foldl (rebalStep feed nav) st).cash := by
  induction tws generalizing st with
  | nil => exact h
  | cons itw rest ih =>
    simp only [List.foldl_cons]
    exact ih _ (fun x hx => hcr x (List.mem_cons_of_mem _ hx))
      (rebalStep_cash_nonneg feed nav st itw (hcr itw (List.mem_cons_self _ _)) h)

/-- Claim C2 (amended): the NAV identity `nav = cash + Σ positions` (±1e-6)
holds unconditionally after a cycle, and `cash ≥ 0` is preserved provided no
instrument with a target weight is crypto-fractional: a crypto buy rounds its
quantity to 6 decimals, which can round UP and overspend the available cash
(by up to `5e-7 * price`), driving cash negative — see
`paper_cycle_cash_negative_cex`. -/
theorem paper_cycle_invariant_noncrypto (feed : String → FeedResult)
    (plan_orders : List Order) (port : PortState)
    (hcash : 0 ≤ port.cash)
    (hpos : ∀ p ∈ port.positions, (0 : ℚ) ≤ p.2)
    (hncr : ∀ itw ∈ buildTargetW plan_orders, is_crypto itw.1 = false) :
    0 ≤ (paper_main feed plan_orders port).cash
    ∧ |recordedNav (paper_main feed plan_orders port)
        - ((paper_main feed plan_orders port).cash
          + sumVals (paper_main feed plan_orders port).positions)| ≤ 1/1000000 := by
  constructor
  · simp only [paper_main]
    apply round6_nonneg
    apply foldl_rebal_cash_nonneg _ _ _ _ hncr
    simp only [phase1]
    exact le_trans hcash (foldl_sellStep_cash_mono _ _ _ _)
  · unfold recordedNav
    exact le_trans (abs_round6_sub_le _) (by norm_num)

/-- Claim C4 (amended): after Phase 1, an instrument held with positive
market value and absent from the plan's target-weight map is NOT always
reduced to zero: non-crypto holdings sell a floored integer number of lots
and retain a residual strictly below one lot (`< price`; in particular the
whole holding survives when it is worth less than one share), while crypto
holdings retain at most `5e-7 * price` from 6-decimal quantity rounding.
See `phase1_retains_value_cex`. -/
theorem phase1_residual_below_lot (feed : String → FeedResult)
    (plan_orders : List Order) (port : PortState) (inst : String)
    (hnd : (keys port.positions).Nodup)
    (htw : alookup (buildTargetW plan_orders) inst = none)
    (hcur : 0 < aget port.positions inst 0) :
    (is_crypto inst = true →
      aget (phase1 feed (buildTargetW plan_orders) port).positions inst 0
        ≤ get_exec_price feed inst / 2000000)
    ∧ (is_crypto inst = false →
      aget (phase1 feed (buildTargetW plan_orders) port).positions inst 0
        < get_exec_price feed inst) := by
  have hmem : inst ∈ keys port.positions := aget_pos_mem_keys hcur
  have hval := foldl_sellStep_value feed (buildTargetW plan_orders)
    (keys port.positions) port inst hnd hmem htw
  simp only [phase1]
  rw [hval]
  exact sellResidual_bound feed inst _ hcur

/-- Claim C10: for every behavior of the external `latest_price` feed
(any returned value, `None`, or a raised exception), `get_exec_price`
returns a strictly positive price; consequently the `price <= 0` skip
branches of `main` are unreachable and no instrument's action is ever
skipped because of an unusable price. -/
theorem get_exec_price_always_pos (feed : String → FeedResult) (inst : String) :
    0 < get_exec_price feed inst ∧ ¬ get_exec_price feed inst ≤ 0 :=
  ⟨get_exec_price_pos feed inst, not_le.mpr (get_exec_price_pos feed inst)⟩

/-! Concrete executions of the embedded programs. -/

/-- Claim C9: starting from `{cash: 1000, positions: {}}` with a plan targeting
`AAPL` at weight 1.0 and the oracle pricing AAPL at 100, one cycle buys 10
shares: `positions.AAPL = 1000` and `cash = 0`. -/
theorem paper_cycle_full_invest_example :
    (paper_main (fun _ => FeedResult.ok 100) [⟨"AAPL", "INCREASE", 1⟩]
      (PortState.mk [] 1000)).positions = [("AAPL", (1000 : ℚ))]
    ∧ (paper_main (fun _ => FeedResult.ok 100) [⟨"AAPL", "INCREASE", 1⟩]
      (PortState.mk [] 1000)).cash = 0 := by
  have htw : buildTargetW [⟨"AAPL", "INCREASE", 1⟩] = [("AAPL", (1 : ℚ))] := by decide
  have hprice : get_exec_price (fun _ => FeedResult.ok 100) "AAPL" = 100 := by decide
  have hcr : is_crypto "AAPL" = false := by decide
  constructor <;>
    norm_num [paper_main, htw, hprice, hcr, phase1, keys, sumVals, rebalStep,
      prunePositions, aget, alookup, aset, round6, rnd, min_def]

set_option maxRecDepth 10000 in
/-- Counterexample to claim C2 as stated: a crypto buy whose 6-decimal
quantity rounding rounds UP overdraws the cash: with cash 1.02, an order
targeting BTC at weight 1.0 and the oracle pricing BTC at 2000000, the cycle
buys 0.000001 BTC for 2.00 and ends with cash = -0.98 < 0. -/
theorem paper_cycle_cash_negative_cex :
    (paper_main (fun _ => FeedResult.ok 2000000) [⟨"BTC", "INCREASE", 1⟩]
      (PortState.mk [] (51/50))).cash < 0 := by
  have htw : buildTargetW [⟨"BTC", "INCREASE", 1⟩] = [("BTC", (1 : ℚ))] := by decide
  have hprice : get_exec_price (fun _ => FeedResult.ok 2000000) "BTC" = 2000000 := by decide
  have hcr : is_crypto "BTC" = true := by decide
  norm_num [paper_main, htw, hprice, hcr, phase1, keys, sumVals, rebalStep,
    prunePositions, aget, alookup, aset, round6, rnd, min_def]
  have habs : |(51:ℚ)/50| = 51/50 := abs_of_nonneg (by norm_num)
  have hne : ¬(|(51:ℚ)/50| < (1:ℚ)/1000000) := by
    rw [habs]
    norm_num
  simp only [if_neg hne]
  norm_num [Int.fract]

/-- Witness for the amended claim C2 at a concrete input: a non-crypto-only
plan keeps cash non-negative and the recorded NAV within 1e-6 of
cash plus positions. -/
theorem paper_cycle_invariant_witness :
    0 ≤ (paper_main (fun _ => FeedResult.ok 100) [⟨"AAPL", "INCREASE", 1⟩]
        (PortState.mk [("VOO", 500)] 1000)).cash
    ∧ |recordedNav (paper_main (fun _ => FeedResult.ok 100) [⟨"AAPL", "INCREASE", 1⟩]
          (PortState.mk [("VOO", 500)] 1000))
        - ((paper_main (fun _ => FeedResult.ok 100) [⟨"AAPL", "INCREASE", 1⟩]
            (PortState.mk [("VOO", 500)] 1000)).cash
          + sumVals (paper_main (fun _ => FeedResult.ok 100) [⟨"AAPL", "INCREASE", 1⟩]
              (PortState.mk [("VOO", 500)] 1000)).positions)| ≤ 1/1000000 :=
  paper_cycle_invariant_noncrypto (fun _ => FeedResult.ok 100)
    [⟨"AAPL", "INCREASE", 1⟩] (PortState.mk [("VOO", 500)] 1000)
    (by decide) (by decide) (by decide)

/-- Counterexample to claim C4 as stated: a held off-plan AAPL position worth
50 with the oracle pricing AAPL at 100 (price available and positive) floors
to 0 sellable shares, so Phase 1 retains the full 50 — not zero. -/
theorem phase1_retains_value_cex :
    ¬ (aget (phase1 (fun _ => FeedResult.ok 100) (buildTargetW [])
      (PortState.mk [("AAPL", 50)] 0)).positions "AAPL" 0 = 0) := by
  have hprice : get_exec_price (fun _ => FeedResult.ok 100) "AAPL" = 100 := by decide
  have hcr : is_crypto "AAPL" = false := by decide
  have heval : aget (phase1 (fun _ => FeedResult.ok 100) (buildTargetW [])
      (PortState.mk [("AAPL", 50)] 0)).positions "AAPL" 0 = 50 := by
    norm_num [phase1, keys, sellStep, sellQty, buildTargetW, hprice, hcr,
      aget, alookup, aset]
  rw [heval]
  norm_num

/-- Witness for the amended claim C4 at a concrete input: an off-plan AAPL
holding worth 150 at price 100 retains a residual strictly below one share's
price after Phase 1. -/
theorem phase1_residual_witness :
    (is_crypto "AAPL" = true →
      aget (phase1 (fun _ => FeedResult.ok 100) (buildTargetW [])
        (PortState.mk [("AAPL", 150)] 0)).positions "AAPL" 0
        ≤ get_exec_price (fun _ => FeedResult.ok 100) "AAPL" / 2000000)
    ∧ (is_crypto "AAPL" = false →
      aget (phase1 (fun _ => FeedResult.ok 100) (buildTargetW [])
        (PortState.mk [("AAPL", 150)] 0)).positions "AAPL" 0
        < get_exec_price (fun _ => FeedResult.ok 100) "AAPL") :=
  phase1_residual_below_lot (fun _ => FeedResult.ok 100) [] (PortState.mk [("AAPL", 150)] 0)
    "AAPL" (by decide) (by decide) (by decide)

set_option maxRecDepth 8000

/-- Counterexample to claim C1 as stated: with `position_max_pct = 0.5` and
confidences AAPL 0.9 / MSFT 0.1, the cap-then-renormalize step yields
`AAPL: 0.5/0.6 = 5/6`, rounded to `0.833333 > 0.5 + 1e-9`: renormalization
pushes the weight back above the cap. -/
theorem build_plan_weight_above_cap_cex :
    ¬ (∀ o ∈ (build_plan (Strategy.mk [("equities", 1)] (1/2))
        [⟨"AAPL", 9/10⟩, ⟨"MSFT", 1/10⟩]).orders,
      o.target_weight ≤ (1:ℚ)/2 + 1/1000000000) := by
  intro h
  have hA : infer_class "AAPL" = "equities" := by decide
  have hM : infer_class "MSFT" = "equities" := by decide
  have hby : buildByClass [⟨"AAPL", (9:ℚ)/10⟩, ⟨"MSFT", 1/10⟩]
      = [("equities", [("AAPL", 9/10), ("MSFT", 1/10)])] := by
    norm_num [buildByClass, hA, hM, aget, alookup, aset, max_def,
      (show ("AAPL" : String) ≠ "MSFT" by decide)]
  have hr1 : round6 ((5:ℚ)/6) = 833333/1000000 := by
    rw [round6_low ((5:ℚ)/6) 833333 (by norm_num) (by norm_num)]
    norm_num
  have hr2 : round6 ((1:ℚ)/6) = 166667/1000000 := by
    rw [round6_high ((1:ℚ)/6) 166666 (by norm_num) (by norm_num)]
    norm_num
  have hplan : (build_plan (Strategy.mk [("equities", 1)] (1/2))
      [⟨"AAPL", (9:ℚ)/10⟩, ⟨"MSFT", 1/10⟩]).orders
      = [⟨"AAPL", "INCREASE", 833333/1000000⟩, ⟨"MSFT", "INCREASE", 166667/1000000⟩] := by
    norm_num [build_plan, hby, classPlanOf, cap_position_weights, ordersOf, clamp01,
      sumVals, aget, alookup, min_def, max_def, hr1, hr2, List.cons_ne_nil]
  rw [hplan] at h
  have hbad := h ⟨"AAPL", "INCREASE", 833333/1000000⟩ (List.mem_cons_self _ _)
  norm_num at hbad

/-- Witness for the amended claim C1 at a concrete input: with cap 0.6 and
two equal confidences the cap binds nothing and both orders stay at weight
0.5 which is at most `0.6 + 5e-7`. -/
theorem build_plan_weight_le_cap_witness :
    (⟨"AAPL", "INCREASE", (1:ℚ)/2⟩ : Order).target_weight ≤ (3:ℚ)/5 + 1/2000000 := by
  have hA : infer_class "AAPL" = "equities" := by decide
  have hM : infer_class "MSFT" = "equities" := by decide
  have hby : buildByClass [⟨"AAPL", (1:ℚ)/2⟩, ⟨"MSFT", 1/2⟩]
      = [("equities", [("AAPL", 1/2), ("MSFT", 1/2)])] := by
    norm_num [buildByClass, hA, hM, aget, alookup, aset, max_def,
      (show ("AAPL" : String) ≠ "MSFT" by decide)]
  have hH : ∀ e ∈ buildByClass [⟨"AAPL", (1:ℚ)/2⟩, ⟨"MSFT", 1/2⟩], ∀ p ∈ e.2,
      p.2 ≤ (Strategy.mk [("equities", 1)] ((3:ℚ)/5)).position_max_pct * sumVals e.2 := by
    rw [hby]
    intro e he p hp
    rw [List.mem_singleton] at he
    subst he
    rcases List.mem_cons.mp hp with rfl | hp'
    · norm_num [sumVals]
    · rcases List.mem_cons.mp hp' with rfl | hp''
      · norm_num [sumVals]
      · simp at hp''
  have hr1 : round6 ((1:ℚ)/2) = 1/2 := by
    rw [round6_low ((1:ℚ)/2) 500000 (by norm_num) (by norm_num)]
    norm_num
  have hplan : (build_plan (Strategy.mk [("equities", 1)] ((3:ℚ)/5))
      [⟨"AAPL", (1:ℚ)/2⟩, ⟨"MSFT", 1/2⟩]).orders
      = [⟨"AAPL", "INCREASE", 1/2⟩, ⟨"MSFT", "INCREASE", 1/2⟩] := by
    norm_num [build_plan, hby, classPlanOf, cap_position_weights, ordersOf, clamp01,
      sumVals, aget, alookup, min_def, max_def, hr1, List.cons_ne_nil]
  exact build_plan_weight_le_cap_of_uncapped (Strategy.mk [("equities", 1)] ((3:ℚ)/5))
    [⟨"AAPL", (1:ℚ)/2⟩, ⟨"MSFT", 1/2⟩] hH ⟨"AAPL", "INCREASE", 1/2⟩
    (by rw [hplan]; exact List.mem_cons_self _ _)

/-- Counterexample to claim C3 as stated: with class target 0.9000044 and
three equal-confidence instruments, each weight rounds down to 0.300001 and
the class sums to 0.900003, off the clamped target by 1.4e-6 > 1e-6. -/
theorem plan_class_sum_beyond_tolerance_cex :
    ¬ (∀ e ∈ (build_plan (Strategy.mk [("equities", 9000044/10000000)] 1)
        [⟨"AAA", 1⟩, ⟨"BBB", 1⟩, ⟨"CCC", 1⟩]).classes,
      |sumVals e.2 - clamp01 (aget [("equities", (9000044:ℚ)/10000000)] e.1 0)|
        ≤ 1/1000000) := by
  intro h
  have hA : infer_class "AAA" = "equities" := by decide
  have hB : infer_class "BBB" = "equities" := by decide
  have hC : infer_class "CCC" = "equities" := by decide
  have hby : buildByClass [⟨"AAA", (1:ℚ)⟩, ⟨"BBB", 1⟩, ⟨"CCC", 1⟩]
      = [("equities", [("AAA", 1), ("BBB", 1), ("CCC", 1)])] := by
    norm_num [buildByClass, hA, hB, hC, aget, alookup, aset, max_def,
      (show ("AAA" : String) ≠ "BBB" by decide), (show ("AAA" : String) ≠ "CCC" by decide),
      (show ("BBB" : String) ≠ "CCC" by decide)]
  have hr1 : round6 ((2250011:ℚ)/7500000) = 300001/1000000 := by
    rw [round6_low ((2250011:ℚ)/7500000) 300001 (by norm_num) (by norm_num)]
    norm_num
  have hplan : (build_plan (Strategy.mk [("equities", (9000044:ℚ)/10000000)] 1)
      [⟨"AAA", (1:ℚ)⟩, ⟨"BBB", 1⟩, ⟨"CCC", 1⟩]).classes
      = [("equities", [("AAA", 300001/1000000), ("BBB", 300001/1000000),
          ("CCC", 300001/1000000)])] := by
    norm_num [build_plan, hby, classPlanOf, cap_position_weights, clamp01,
      sumVals, aget, alookup, min_def, max_def, hr1, List.cons_ne_nil]
  rw [hplan] at h
  have hbad := h _ (List.mem_cons_self _ _)
  norm_num [sumVals, clamp01, aget, alookup, min_def, max_def] at hbad
  rw [abs_of_nonneg (by norm_num : (0:ℚ) ≤ 7/5000000)] at hbad
  norm_num at hbad

/-- Witness for the amended claim C3 at a concrete input: a one-instrument
class sums to its clamped target within `1 * 5e-7`. -/
theorem plan_class_sum_witness :
    |sumVals [("AAPL", (1:ℚ))] - clamp01 (aget [("equities", (1:ℚ))] "equities" 0)|
      ≤ (([("AAPL", (1:ℚ))] : List (String × ℚ)).length : ℚ) / 2000000 := by
  have hA : infer_class "AAPL" = "equities" := by decide
  have hby : buildByClass [⟨"AAPL", (1:ℚ)⟩]
      = [("equities", [("AAPL", 1)])] := by
    norm_num [buildByClass, hA, aget, alookup, aset, max_def]
  have hr1 : round6 (1:ℚ) = 1 := by
    rw [round6_low (1:ℚ) 1000000 (by norm_num) (by norm_num)]
    norm_num
  have hplan : (build_plan (Strategy.mk [("equities", (1:ℚ))] 1)
      [⟨"AAPL", (1:ℚ)⟩]).classes = [("equities", [("AAPL", 1)])] := by
    norm_num [build_plan, hby, classPlanOf, cap_position_weights, clamp01,
      sumVals, aget, alookup, min_def, max_def, hr1, List.cons_ne_nil]
  have h := plan_class_sum_within_rounding (Strategy.mk [("equities", (1:ℚ))] 1)
    [⟨"AAPL", (1:ℚ)⟩] (by norm_num) ("equities", [("AAPL", 1)])
    (by rw [hplan]; exact List.mem_cons_self _ _)
  simpa using h

/-- Counterexample to claim C5 as stated: a BTC signal with confidence 0.6
under a policy with no `crypto` entry is NOT dropped: the plan keeps the
class with weight 0 and emits a HOLD order for it. -/
theorem zero_weight_class_not_dropped_cex :
    ("crypto", [("BTC", (0:ℚ))]) ∈ (build_plan (Strategy.mk [("equities", 1)] 1)
        [⟨"BTC", 3/5⟩]).classes
    ∧ (⟨"BTC", "HOLD", 0⟩ : Order) ∈ (build_plan (Strategy.mk [("equities", 1)] 1)
        [⟨"BTC", 3/5⟩]).orders := by
  have hB : infer_class "BTC" = "crypto" := by decide
  have hby : buildByClass [⟨"BTC", (3:ℚ)/5⟩] = [("crypto", [("BTC", 3/5)])] := by
    norm_num [buildByClass, hB, aget, alookup, aset, max_def]
  have hcl : (build_plan (Strategy.mk [("equities", (1:ℚ))] 1)
      [⟨"BTC", (3:ℚ)/5⟩]).classes = [("crypto", [("BTC", 0)])] := by
    norm_num [build_plan, hby, classPlanOf, cap_position_weights, clamp01,
      sumVals, aget, alookup, min_def, max_def, round6_zero, List.cons_ne_nil,
      (show ("equities" : String) ≠ "crypto" by decide)]
  have hor : (build_plan (Strategy.mk [("equities", (1:ℚ))] 1)
      [⟨"BTC", (3:ℚ)/5⟩]).orders = [⟨"BTC", "HOLD", 0⟩] := by
    norm_num [build_plan, hby, classPlanOf, cap_position_weights, ordersOf, clamp01,
      sumVals, aget, alookup, min_def, max_def, round6_zero, List.cons_ne_nil,
      (show ("equities" : String) ≠ "crypto" by decide)]
  rw [hcl, hor]
  exact ⟨List.mem_cons_self _ _, List.mem_cons_self _ _⟩

/-- Witness for the amended claim C5 at a concrete input: the positive-
confidence BTC class, absent from the policy, is kept in the plan with the
zero-weight entry and its HOLD order. -/
theorem zero_weight_class_witness :
    ("crypto", [("BTC", (0:ℚ))]) ∈ (build_plan (Strategy.mk [("equities", 1)] 1)
        [⟨"BTC", 3/5⟩]).classes
    ∧ (⟨"BTC", "HOLD", (0:ℚ)⟩ : Order) ∈ (build_plan (Strategy.mk [("equities", 1)] 1)
        [⟨"BTC", 3/5⟩]).orders := by
  have hB : infer_class "BTC" = "crypto" := by decide
  have hby : buildByClass [⟨"BTC", (3:ℚ)/5⟩] = [("crypto", [("BTC", 3/5)])] := by
    norm_num [buildByClass, hB, aget, alookup, aset, max_def]
  obtain ⟨cp, hmem, hkeys, hzero, hord⟩ := zero_weight_class_kept
    (Strategy.mk [("equities", (1:ℚ))] 1) [⟨"BTC", (3:ℚ)/5⟩]
    ("crypto", [("BTC", (3:ℚ)/5)]) (by rw [hby]; exact List.mem_cons_self _ _)
    (by norm_num [sumVals]) (by decide)
  cases cp with
  | nil => simp [keys] at hkeys
  | cons p tail =>
    obtain ⟨a, b⟩ := p
    simp only [keys, List.map_cons, List.map_nil, List.cons.injEq,
      List.map_eq_nil_iff] at hkeys
    obtain ⟨ha, htail⟩ := hkeys
    subst ha
    subst htail
    have hb : b = 0 := hzero ("BTC", b) (List.mem_cons_self _ _)
    subst hb
    exact ⟨hmem, hord ("BTC", 0) (List.mem_cons_self _ _)⟩

/-- Witness for claim C8 at a concrete input. -/
theorem build_plan_deterministic_witness :
    (build_plan (Strategy.mk [("equities", 1)] 1) [⟨"AAPL", 1⟩]).classes
      = (build_plan (Strategy.mk [("equities", 1)] 1) [⟨"AAPL", 1⟩]).classes
    ∧ (build_plan (Strategy.mk [("equities", 1)] 1) [⟨"AAPL", 1⟩]).orders
      = (build_plan (Strategy.mk [("equities", 1)] 1) [⟨"AAPL", 1⟩]).orders :=
  build_plan_deterministic (Strategy.mk [("equities", 1)] 1) [⟨"AAPL", 1⟩]
    (build_plan (Strategy.mk [("equities", 1)] 1) [⟨"AAPL", 1⟩])
    (build_plan (Strategy.mk [("equities", 1)] 1) [⟨"AAPL", 1⟩]) rfl rfl

/-- Counterexample to claim C6 as stated: with `alloc_target` summing to 0.5
(positive, off 1 by far more than 1e-6), the validator's errors list contains
only the total-weight error — the alloc-sum mismatch shows up exclusively as
a warning. -/
theorem alloc_sum_off_not_error_cex :
    (run_validate_main [("equities", 1/2)] 0 1 [("equities", [("AAPL", 1/2)])]).warnings
      = [VMsg.allocSumOffOne (1/2)]
    ∧ (run_validate_main [("equities", 1/2)] 0 1 [("equities", [("AAPL", 1/2)])]).errors
      = [VMsg.totalWeightOffOne (1/2)] := by
  have hd : sortedSetDiff ["equities"] ["equities"] = [] := by decide
  constructor <;>
    norm_num [run_validate_main, sumVals, classSumsOf, bandErrorsOf, violatorsOf,
      sortViolators, keys, aset, aget, alookup, hd, List.insertionSort,
      List.cons_ne_nil, lt_abs]

/-- Witness for the amended claim C6 at a concrete input. -/
theorem alloc_sum_off_warning_witness :
    VMsg.allocSumOffOne (sumVals [("equities", (1:ℚ)/2)])
        ∈ (run_validate_main [("equities", 1/2)] 0 1
            [("equities", [("AAPL", 1/2)])]).warnings
    ∧ VMsg.allocSumOffOne (sumVals [("equities", (1:ℚ)/2)])
        ∉ (run_validate_main [("equities", 1/2)] 0 1
            [("equities", [("AAPL", 1/2)])]).errors :=
  alloc_sum_off_is_warning [("equities", 1/2)] 0 1 [("equities", [("AAPL", 1/2)])]
    (by decide) (by norm_num [sumVals]) (by norm_num [sumVals, lt_abs])

/-- Counterexample to claim C7 as stated: policy class `equities` (target 0.6,
band 0.05) is absent from the plan, yet the validator's errors list contains a
band-violation error for it (with actual weight 0) — band errors are not
restricted to classes present in the plan. -/
theorem missing_class_band_error_cex :
    (run_validate_main [("equities", 3/5)] (1/20) 1
      [("crypto", [("BTC", 1)])]).errors
      = [VMsg.bandViolation "equities" (3/5) 0] := by
  norm_num [run_validate_main, sumVals, classSumsOf, bandErrorsOf, violatorsOf,
    sortViolators, keys, aset, aget, alookup, List.insertionSort,
    List.cons_ne_nil, lt_abs, (show ("crypto" : String) ≠ "equities" by decide)]

/-- Witness for the amended claim C7 at a concrete input: the absent class
gets both the missing-class warning and the band-violation error. -/
theorem missing_class_band_witness :
    VMsg.missingClasses (sortedSetDiff (keys [("equities", (3:ℚ)/5)])
        (keys [("crypto", [("BTC", (1:ℚ))])]))
      ∈ (run_validate_main [("equities", 3/5)] (1/20) 1
          [("crypto", [("BTC", 1)])]).warnings
    ∧ VMsg.bandViolation "equities" (3/5) 0
      ∈ (run_validate_main [("equities", 3/5)] (1/20) 1
          [("crypto", [("BTC", 1)])]).errors := by
  have h := missing_class_band_check_runs [("equities", 3/5)] (1/20) 1
    [("crypto", [("BTC", 1)])] "equities" (3/5) (List.mem_cons_self _ _) (by decide)
  exact ⟨h.1.2, h.2 (Or.inl (by norm_num))⟩

end InvestAgents
